import Mathlib

/-!
# Verification of minikin SparseBitSet / FontFamily

A shallow embedding of the minikin font-family core:

* `SparseBitSet` — the page-indirected sparse bitmap with its binary
  serialization.  The implementation file of `SparseBitSet` is not part of
  the sources at hand (only its unit test is), so the data structure is
  modelled from the design document: a page-index table whose entries are
  either a sentinel ("page entirely unset") or an offset into a packed bit
  array, built from a flat sequence of half-open `[start,end)` ranges, with
  a self-describing serialized form
  `[version][page-table length][bit-array length][page table][packed bits]`.
* `FontFamily` — style matching (`computeMatch`, `computeFakery`,
  `getClosestMatch`), coverage queries (`hasGlyph`) and variation-family
  derivation (`createFamilyWithVariation`), translated from
  `libs/minikin/FontFamily.cpp`.  External collaborators (table decoding,
  variation-selector index translation, font-resource derivation) are
  passed in as explicit parameters.
-/

namespace Minikin

/-- Modelled from the spec: number of code points per page of the sparse
bitmap (a fixed page size; the historical implementation uses 128). -/
def kPageSize : Nat := 128

/-- Modelled from the spec: format version written at the head of a
serialized `SparseBitSet` blob. -/
def kVersion : Nat := 1

/-- Modelled from the spec: an immutable sparse bitmap over the code-point
domain.  `indices` is the page-index table, one entry per page, holding
either the sentinel `none` ("page entirely unset") or `some off`, an offset
into the packed bit array `bitmap` at which that page's `kPageSize` bits
start.  Missing from the sources: `libs/minikin/SparseBitSet.cpp` and its
header. -/
structure SparseBitSet where
  indices : List (Option Nat)
  bitmap : List Bool
deriving DecidableEq

/-- The empty bitset (default-constructed `SparseBitSet`): no pages, no bits. -/
def SparseBitSet.empty : SparseBitSet := ⟨[], []⟩

/-- Modelled from the spec: point query.  Compute the page index
`c / kPageSize`; beyond the page table or on a sentinel entry the answer is
false, otherwise the single bit at the page's offset plus `c % kPageSize`
is read from the packed bit array.  Out-of-range queries return false,
never fail. -/
def SparseBitSet.get (bs : SparseBitSet) (c : Nat) : Bool :=
  match bs.indices.getD (c / kPageSize) none with
  | none => false
  | some off => bs.bitmap.getD (off + c % kPageSize) false

/-- Encoding of one page-table entry in the serialized form: the sentinel
is written as `0`, an offset `v` as `v + 1`. -/
def encodeIndex : Option Nat → Nat
  | none => 0
  | some v => v + 1

/-- Decoding of one serialized page-table entry, inverse of `encodeIndex`. -/
def decodeIndex (w : Nat) : Option Nat :=
  if w = 0 then none else some (w - 1)

/-- Encoding of one bit of the packed bit array as a serialized word. -/
def encodeBit (b : Bool) : Nat := cond b 1 0

/-- Decoding of one serialized word of the packed bit array. -/
def decodeBit (w : Nat) : Bool := decide (w ≠ 0)

/-- Modelled from the spec: serialization to a self-describing blob, a
header `[format version, page-table length, bit-array length]` followed by
the page-index table and the packed bit array. -/
def SparseBitSet.serialize (bs : SparseBitSet) : List Nat :=
  kVersion :: bs.indices.length :: bs.bitmap.length ::
    (bs.indices.map encodeIndex ++ bs.bitmap.map encodeBit)

/-- Modelled from the spec: deserialization.  Reads the header, checks that
the payload length is consistent with the declared table lengths, and
reconstructs the bitset; a truncated or inconsistent blob is rejected with
`none` rather than read out of bounds. -/
def SparseBitSet.deserialize (blob : List Nat) : Option SparseBitSet :=
  match blob with
  | version :: nIdx :: nBit :: rest =>
    if version = kVersion ∧ nIdx + nBit = rest.length then
      some ⟨(rest.take nIdx).map decodeIndex,
            (rest.drop nIdx).map decodeBit⟩
    else none
  | _ => none

lemma decodeIndex_encodeIndex (i : Option Nat) : decodeIndex (encodeIndex i) = i := by
  cases i <;> simp [encodeIndex, decodeIndex]

lemma decodeBit_encodeBit (b : Bool) : decodeBit (encodeBit b) = b := by
  cases b <;> simp [encodeBit, decodeBit]

/-- Deserializing a serialized bitset recovers it exactly. -/
lemma SparseBitSet.deserialize_serialize (bs : SparseBitSet) :
    SparseBitSet.deserialize bs.serialize = some bs := by
  unfold SparseBitSet.serialize SparseBitSet.deserialize
  have hlen : bs.indices.length + bs.bitmap.length =
      (bs.indices.map encodeIndex ++ bs.bitmap.map encodeBit).length := by
    simp
  have htake : (bs.indices.map encodeIndex ++
      bs.bitmap.map encodeBit).take bs.indices.length =
      bs.indices.map encodeIndex := by
    rw [show bs.indices.length = (bs.indices.map encodeIndex).length by simp]
    exact List.take_left _ _
  have hdrop : (bs.indices.map encodeIndex ++
      bs.bitmap.map encodeBit).drop bs.indices.length =
      bs.bitmap.map encodeBit := by
    rw [show bs.indices.length = (bs.indices.map encodeIndex).length by simp]
    exact List.drop_left _ _
  simp only [hlen, htake, hdrop, and_true, eq_self_iff_true, if_true]
  cases bs with
  | mk idx bm =>
    simp only [Option.some.injEq, SparseBitSet.mk.injEq, List.map_map]
    constructor
    · simp [Function.comp_def, decodeIndex_encodeIndex]
    · simp [Function.comp_def, decodeBit_encodeBit]

/-- Membership of a code point in one of the half-open `[start, end)` ranges. -/
def inRanges (ranges : List (Nat × Nat)) (c : Nat) : Bool :=
  ranges.any fun r => decide (r.1 ≤ c) && decide (c < r.2)

/-- Modelled from the spec: the `kPageSize` bits of page `p`, computed from
the construction ranges. -/
def pageBits (ranges : List (Nat × Nat)) (p : Nat) : List Bool :=
  (List.range kPageSize).map fun j => inRanges ranges (p * kPageSize + j)

/-- Modelled from the spec: build the page-index table and packed bit array
for the first `n` pages.  A page whose bits are all clear gets the sentinel
entry; otherwise its bits are appended to the packed array and the entry
records the offset at which they start. -/
def buildPages (ranges : List (Nat × Nat)) : Nat → List (Option Nat) × List Bool
  | 0 => ([], [])
  | p + 1 =>
    if (pageBits ranges p).all (fun b => b = false) then
      ((buildPages ranges p).1 ++ [none], (buildPages ranges p).2)
    else
      ((buildPages ranges p).1 ++ [some (buildPages ranges p).2.length],
       (buildPages ranges p).2 ++ pageBits ranges p)

/-- One past the largest code point mentioned by the ranges. -/
def maxEnd (ranges : List (Nat × Nat)) : Nat :=
  ranges.foldr (fun r m => max r.2 m) 0

/-- Number of pages needed to cover every range end. -/
def numPages (ranges : List (Nat × Nat)) : Nat :=
  (maxEnd ranges + kPageSize - 1) / kPageSize

/-- Modelled from the spec: construction from a flat sequence of half-open
`[start, end)` ranges.  Every bit inside some interval is set, all others
are clear; empty input yields the minimal all-clear bitset. -/
def SparseBitSet.ofRanges (ranges : List (Nat × Nat)) : SparseBitSet :=
  ⟨(buildPages ranges (numPages ranges)).1, (buildPages ranges (numPages ranges)).2⟩

/-- Well-formedness of a range list as the construction requires it:
each range is `start ≤ end` and consecutive ranges are disjoint and
ascending (`end ≤ next start`). -/
def rangesSortedDisjoint : List (Nat × Nat) → Bool
  | [] => true
  | [r] => decide (r.1 ≤ r.2)
  | r :: s :: rest =>
    decide (r.1 ≤ r.2) && decide (r.2 ≤ s.1) && rangesSortedDisjoint (s :: rest)

lemma pageBits_length (R : List (Nat × Nat)) (p : Nat) :
    (pageBits R p).length = kPageSize := by
  simp [pageBits]

lemma pageBits_getD (R : List (Nat × Nat)) (p j : Nat) (hj : j < kPageSize) :
    (pageBits R p).getD j false = inRanges R (p * kPageSize + j) := by
  rw [List.getD_eq_getElem _ _ (by simpa [pageBits_length] using hj)]
  simp [pageBits]

lemma buildPages_succ (R : List (Nat × Nat)) (p : Nat) :
    buildPages R (p + 1) =
      if (pageBits R p).all (fun b => b = false) then
        ((buildPages R p).1 ++ [none], (buildPages R p).2)
      else
        ((buildPages R p).1 ++ [some (buildPages R p).2.length],
         (buildPages R p).2 ++ pageBits R p) := by
  rfl

lemma buildPages_fst_length (R : List (Nat × Nat)) (n : Nat) :
    (buildPages R n).1.length = n := by
  induction n with
  | zero => rfl
  | succ p ih =>
    rw [buildPages_succ]
    split <;> simp [ih]

lemma buildPages_offset_bound (R : List (Nat × Nat)) (n : Nat) :
    ∀ e ∈ (buildPages R n).1, ∀ off, e = some off →
      off + kPageSize ≤ (buildPages R n).2.length := by
  induction n with
  | zero => simp [buildPages]
  | succ p ih =>
    rw [buildPages_succ]
    split
    · intro e he off heq
      rcases List.mem_append.mp he with h1 | h2
      · exact ih e h1 off heq
      · simp only [List.mem_singleton] at h2
        subst h2
        exact absurd heq (by simp)
    · intro e he off heq
      rcases List.mem_append.mp he with h1 | h2
      · have := ih e h1 off heq
        simp only [List.length_append]
        omega
      · simp only [List.mem_singleton] at h2
        subst h2
        have hoff : off = (buildPages R p).2.length := by
          simpa using heq.symm
        subst hoff
        simp [pageBits_length]

lemma buildPages_getD_mem (R : List (Nat × Nat)) (n p off : Nat)
    (hoff : (buildPages R n).1.getD p none = some off) :
    some off ∈ (buildPages R n).1 := by
  by_cases hplen : p < (buildPages R n).1.length
  · rw [List.getD_eq_getElem _ _ hplen] at hoff
    exact hoff ▸ List.getElem_mem _
  · rw [List.getD_eq_default _ _ (by omega)] at hoff
    cases hoff

/-- The two-level lookup through the first `n` pages agrees with direct
range membership on every code point of those pages. -/
lemma buildPages_lookup (R : List (Nat × Nat)) (n : Nat) :
    ∀ p, p < n → ∀ j, j < kPageSize →
      (match (buildPages R n).1.getD p none with
       | none => false
       | some off => (buildPages R n).2.getD (off + j) false) =
      inRanges R (p * kPageSize + j) := by
  induction n with
  | zero => intro p hp; omega
  | succ q ih =>
    intro p hp j hj
    rcases Nat.lt_succ_iff_lt_or_eq.mp hp with hpq | hpq
    · -- a page already built: the appended entry and bits do not disturb it
      have hplen : p < (buildPages R q).1.length := by
        rw [buildPages_fst_length]; exact hpq
      have hidx : (buildPages R (q + 1)).1.getD p none =
          (buildPages R q).1.getD p none := by
        rw [buildPages_succ]
        split <;> exact List.getD_append _ _ _ _ hplen
      rw [hidx]
      rcases hoff : (buildPages R q).1.getD p none with _ | off
      · have h := ih p hpq j hj
        rw [hoff] at h
        exact h
      · have hbound : off + kPageSize ≤ (buildPages R q).2.length :=
          buildPages_offset_bound R q _ (buildPages_getD_mem R q p off hoff) off rfl
        have hbm : (buildPages R (q + 1)).2.getD (off + j) false =
            (buildPages R q).2.getD (off + j) false := by
          rw [buildPages_succ]
          split
          · rfl
          · exact List.getD_append _ _ _ _ (by omega)
        have h := ih p hpq j hj
        rw [hoff] at h
        show (buildPages R (q + 1)).2.getD (off + j) false = inRanges R (p * kPageSize + j)
        rw [hbm]
        exact h
    · -- the freshly built page
      subst hpq
      have hqlen : (buildPages R p).1.length = p := buildPages_fst_length R p
      rw [buildPages_succ]
      by_cases hall : (pageBits R p).all (fun b => b = false) = true
      · rw [if_pos hall]
        dsimp only
        have hidx : ((buildPages R p).1 ++ [(none : Option Nat)]).getD p none = none := by
          rw [List.getD_append_right _ _ _ _ (by omega), hqlen]
          simp
        rw [hidx]
        have hmem : inRanges R (p * kPageSize + j) ∈ pageBits R p := by
          simp only [pageBits, List.mem_map]
          exact ⟨j, List.mem_range.mpr hj, rfl⟩
        have hbit := (List.all_eq_true.mp hall) _ hmem
        simp only [decide_eq_true_eq] at hbit
        exact hbit.symm
      · rw [if_neg hall]
        dsimp only
        have hidx : ((buildPages R p).1 ++ [some (buildPages R p).2.length]).getD p none =
            some (buildPages R p).2.length := by
          rw [List.getD_append_right _ _ _ _ (by omega), hqlen]
          simp
        rw [hidx]
        show ((buildPages R p).2 ++ pageBits R p).getD ((buildPages R p).2.length + j) false =
          inRanges R (p * kPageSize + j)
        rw [List.getD_append_right _ _ _ _ (by omega)]
        rw [Nat.add_sub_cancel_left]
        exact pageBits_getD R p j hj

lemma le_numPages_mul (R : List (Nat × Nat)) :
    maxEnd R ≤ numPages R * kPageSize := by
  unfold numPages kPageSize
  omega

lemma range_end_le_maxEnd (R : List (Nat × Nat)) :
    ∀ r ∈ R, r.2 ≤ maxEnd R := by
  induction R with
  | nil => simp
  | cons r rest ih =>
    intro s hs
    rcases List.mem_cons.mp hs with h | h
    · subst h; simp [maxEnd]
    · have := ih s h
      simp only [maxEnd, List.foldr_cons]
      have : s.2 ≤ maxEnd rest := this
      simp only [maxEnd] at this
      omega

/-- Claim C2: a bitset constructed from disjoint ascending half-open
`[start, end)` ranges answers `get c = true` exactly when `c` lies in one
of the ranges; every code point outside all ranges — including values at
or beyond the covered domain — answers false (and the query is total, so
it never fails or reads out of bounds). -/
theorem sparseBitSet_ofRanges_get (R : List (Nat × Nat))
    (hwf : rangesSortedDisjoint R = true) (c : Nat) :
    (SparseBitSet.ofRanges R).get c = true ↔ ∃ r ∈ R, r.1 ≤ c ∧ c < r.2 := by
  have hk : 0 < kPageSize := by simp [kPageSize]
  have hmain : (SparseBitSet.ofRanges R).get c = inRanges R c := by
    unfold SparseBitSet.ofRanges SparseBitSet.get
    by_cases hp : c / kPageSize < numPages R
    · have h := buildPages_lookup R (numPages R) (c / kPageSize) hp (c % kPageSize)
        (Nat.mod_lt _ hk)
      rw [Nat.div_add_mod'] at h
      exact h
    · have hlen : (buildPages R (numPages R)).1.length ≤ c / kPageSize := by
        rw [buildPages_fst_length]; omega
      rw [List.getD_eq_default _ _ hlen]
      have hc : maxEnd R ≤ c := by
        have h1 := le_numPages_mul R
        have h2 : numPages R * kPageSize ≤ (c / kPageSize) * kPageSize :=
          Nat.mul_le_mul_right _ (by omega)
        have h3 : (c / kPageSize) * kPageSize ≤ c := Nat.div_mul_le_self c kPageSize
        omega
      have : inRanges R c = false := by
        simp only [inRanges, List.any_eq_false]
        intro r hr
        have := range_end_le_maxEnd R r hr
        simp only [Bool.and_eq_true, decide_eq_true_eq, not_and]
        intro _
        omega
      rw [this]
  rw [hmain]
  simp only [inRanges, List.any_eq_true, Bool.and_eq_true, decide_eq_true_eq]

/-- Claim C1: for every SparseBitSet (empty or non-empty), deserializing
the bytes produced by serializing it yields a bitset that answers `get c`
identically for every code point `c`, and serializing that deserialized
copy produces a blob identical to the original serialization. -/
theorem sparseBitSet_roundtrip (bs : SparseBitSet) :
    ∃ bs2 : SparseBitSet,
      SparseBitSet.deserialize bs.serialize = some bs2 ∧
      (∀ c : Nat, bs2.get c = bs.get c) ∧
      bs2.serialize = bs.serialize := by
  exact ⟨bs, bs.deserialize_serialize, fun _ => rfl, rfl⟩

/-- Witness for C2 at the concrete input of the unit test: the single range
`[10, 20)` queried at code point 15. -/
theorem sparseBitSet_ofRanges_get_witness :
    rangesSortedDisjoint [(10, 20)] = true ∧
      ((SparseBitSet.ofRanges [(10, 20)]).get 15 = true ↔
        ∃ r ∈ [((10 : Nat), (20 : Nat))], r.1 ≤ 15 ∧ 15 < r.2) :=
  ⟨by decide, sparseBitSet_ofRanges_get [(10, 20)] (by decide) 15⟩

/-! ## FontFamily: styles, matching and fakery (`libs/minikin/FontFamily.cpp`) -/

/-- Enum `FontStyle::Slant` from `minikin/FontStyle.h`. -/
inductive Slant where
  | UPRIGHT : Slant
  | ITALIC : Slant
deriving DecidableEq

/-- A font style: integer weight plus slant, as compared by
`FontStyle::operator==` (two styles are equal iff weight and slant agree). -/
structure FontStyle where
  weight : Nat
  slant : Slant
deriving DecidableEq

/-- The default-constructed `FontStyle()`: weight 400, upright. -/
def defaultFontStyle : FontStyle := ⟨400, Slant.UPRIGHT⟩

/-- Structure `Font`: one font resource handle (an opaque identifier standing for the
`std::shared_ptr<MinikinFont>` typeface) paired with its declared style. -/
structure Font where
  typeface : Nat
  style : FontStyle
deriving DecidableEq

/-- Structure `FontFakery`: the synthetic bold / synthetic italic flags. -/
structure FontFakery where
  fakeBold : Bool
  fakeItalic : Bool
deriving DecidableEq

/-- Structure `FakedFont`: the typeface chosen by `getClosestMatch` (`none` models the
`nullptr` returned for an empty family) together with its fakery flags. -/
structure FakedFont where
  font : Option Nat
  fakery : FontFakery
deriving DecidableEq

/-- Function `computeMatch` from FontFamily.cpp: 0 on an exact style match,
otherwise the absolute difference of the weights bucketed into hundreds,
plus 2 if the slants differ. -/
def computeMatch (style1 style2 : FontStyle) : Int :=
  if style1 = style2 then 0
  else
    let score : Int := |((style1.weight / 100 : Nat) : Int) - ((style2.weight / 100 : Nat) : Int)|
    if style1.slant ≠ style2.slant then score + 2 else score

/-- Function `computeFakery` from FontFamily.cpp: fake bold iff the wanted weight is
semibold or darker and at least two weight grades above the actual weight;
fake italic iff italic was wanted but the actual font is upright. -/
def computeFakery (wanted actual : FontStyle) : FontFakery :=
  { fakeBold := decide (wanted.weight ≥ 600 ∧
      (wanted.weight : Int) - (actual.weight : Int) ≥ 200)
  , fakeItalic := decide (wanted.slant = Slant.ITALIC ∧ actual.slant = Slant.UPRIGHT) }

/-- The scan loop of `FontFamily::getClosestMatch`: iterate over the fonts
with their index `i`, replacing the tracked best font exactly when `i == 0`
or the font's score is strictly below the best score seen so far. -/
def closestLoop (style : FontStyle) :
    List Font → Nat → Option Font → Int → Option Font × Int
  | [], _, bestFont, bestMatch => (bestFont, bestMatch)
  | font :: rest, i, bestFont, bestMatch =>
    if i = 0 ∨ computeMatch font.style style < bestMatch then
      closestLoop style rest (i + 1) (some font) (computeMatch font.style style)
    else
      closestLoop style rest (i + 1) bestFont bestMatch

/-- Method `FontFamily::getClosestMatch` over the family's font list: run the scan
loop from index 0 with no best font and best score 0; wrap the winner with
its fakery, or return `nullptr` with neutral fakery when there is none. -/
def getClosestMatch (fonts : List Font) (style : FontStyle) : FakedFont :=
  match (closestLoop style fonts 0 none 0).1 with
  | some bestFont => ⟨some bestFont.typeface, computeFakery style bestFont.style⟩
  | none => ⟨none, ⟨false, false⟩⟩

/-- Claim C9: `computeMatch` is 0 exactly on identical styles and otherwise
the hundred-bucketed weight distance plus 2 for a slant mismatch; it is
non-negative and symmetric in its two arguments. -/
theorem computeMatch_spec (a b : FontStyle) :
    computeMatch a b =
      (if a = b then 0
       else |((a.weight / 100 : Nat) : Int) - ((b.weight / 100 : Nat) : Int)| +
         (if a.slant ≠ b.slant then 2 else 0)) ∧
    0 ≤ computeMatch a b ∧
    computeMatch a b = computeMatch b a := by
  refine ⟨?_, ?_, ?_⟩
  · unfold computeMatch
    by_cases hab : a = b
    · simp [hab]
    · rw [if_neg hab, if_neg hab]
      by_cases hsl : a.slant ≠ b.slant
      · rw [if_pos hsl, if_pos hsl]
      · rw [if_neg hsl, if_neg hsl]
        simp
  · unfold computeMatch
    by_cases hab : a = b
    · simp [hab]
    · rw [if_neg hab]
      have habs : (0 : Int) ≤ |((a.weight / 100 : Nat) : Int) - ((b.weight / 100 : Nat) : Int)| :=
        abs_nonneg _
      by_cases hsl : a.slant ≠ b.slant
      · rw [if_pos hsl]; omega
      · rw [if_neg hsl]; omega
  · unfold computeMatch
    by_cases hab : a = b
    · simp [hab]
    · have hba : ¬ b = a := fun h => hab h.symm
      rw [if_neg hab, if_neg hba, abs_sub_comm]
      by_cases hsl : a.slant ≠ b.slant
      · rw [if_pos hsl, if_pos (fun h => hsl h.symm : b.slant ≠ a.slant)]
      · rw [if_neg hsl]
        have : ¬ b.slant ≠ a.slant := fun h => hsl (fun h2 => h h2.symm)
        rw [if_neg this]

/-- Claim C4: `computeFakery` sets fakeBold exactly when the wanted weight
is at least 600 and exceeds the actual weight by at least 200, and sets
fakeItalic exactly when italic was wanted but the actual slant is upright;
in particular (700 italic, 400 upright) yields (true, true) and
(500, 400) yields no fake bold. -/
theorem computeFakery_spec :
    (∀ wanted actual : FontStyle,
      ((computeFakery wanted actual).fakeBold = true ↔
        wanted.weight ≥ 600 ∧ (wanted.weight : Int) - (actual.weight : Int) ≥ 200) ∧
      ((computeFakery wanted actual).fakeItalic = true ↔
        wanted.slant = Slant.ITALIC ∧ actual.slant = Slant.UPRIGHT)) ∧
    computeFakery ⟨700, Slant.ITALIC⟩ ⟨400, Slant.UPRIGHT⟩ = ⟨true, true⟩ ∧
    (computeFakery ⟨500, Slant.UPRIGHT⟩ ⟨400, Slant.UPRIGHT⟩).fakeBold = false := by
  refine ⟨fun wanted actual => ⟨?_, ?_⟩, by decide, by decide⟩
  · simp [computeFakery]
  · simp [computeFakery]

/-- The pure best-so-far recursion underlying the scan loop for indices
`i ≥ 1`: keep the current best unless a strictly lower score appears. -/
def pick (style : FontStyle) : Font → List Font → Font
  | b, [] => b
  | b, f :: rest =>
    if computeMatch f.style style < computeMatch b.style style then pick style f rest
    else pick style b rest

lemma closestLoop_eq_pick (style : FontStyle) :
    ∀ (l : List Font) (i : Nat) (b : Font), 1 ≤ i →
      (closestLoop style l i (some b) (computeMatch b.style style)).1 =
        some (pick style b l) := by
  intro l
  induction l with
  | nil => intro i b _; rfl
  | cons f rest ih =>
    intro i b hi
    unfold closestLoop pick
    by_cases hlt : computeMatch f.style style < computeMatch b.style style
    · rw [if_pos (Or.inr hlt), if_pos hlt]
      exact ih (i + 1) f (by omega)
    · rw [if_neg (by omega : ¬ (i = 0 ∨ computeMatch f.style style <
        computeMatch b.style style)), if_neg hlt]
      exact ih (i + 1) b (by omega)

lemma pick_cons (style : FontStyle) (b f : Font) (rest : List Font) :
    pick style b (f :: rest) =
      if computeMatch f.style style < computeMatch b.style style then pick style f rest
      else pick style b rest := rfl

lemma pick_spec (style : FontStyle) :
    ∀ (l : List Font) (b : Font),
      (pick style b l = b ∧
        ∀ f ∈ l, ¬ (computeMatch f.style style < computeMatch b.style style)) ∨
      (∃ i, ∃ hi : i < l.length,
        pick style b l = l.get ⟨i, hi⟩ ∧
        computeMatch (l.get ⟨i, hi⟩).style style < computeMatch b.style style ∧
        (∀ j, ∀ hj : j < l.length, j < i →
          computeMatch (l.get ⟨i, hi⟩).style style <
            computeMatch (l.get ⟨j, hj⟩).style style) ∧
        (∀ j, ∀ hj : j < l.length,
          computeMatch (l.get ⟨i, hi⟩).style style ≤
            computeMatch (l.get ⟨j, hj⟩).style style)) := by
  intro l
  induction l with
  | nil => intro b; exact Or.inl ⟨rfl, by simp⟩
  | cons f rest ih =>
    intro b
    by_cases hlt : computeMatch f.style style < computeMatch b.style style
    · have hpf : pick style b (f :: rest) = pick style f rest := by
        rw [pick_cons, if_pos hlt]
      rcases ih f with ⟨h1, h2⟩ | ⟨i2, hi2, hp, hl, hs, hle⟩
      · refine Or.inr ⟨0, by simp, ?_, ?_, ?_, ?_⟩
        · rw [hpf, h1]; rfl
        · exact hlt
        · intro j hj hj0; omega
        · intro j hj
          cases j with
          | zero => exact le_refl _
          | succ k =>
            have hk : k < rest.length := by simpa using hj
            have hmem : rest.get ⟨k, hk⟩ ∈ rest := List.get_mem rest k hk
            have := h2 _ hmem
            show computeMatch f.style style ≤
              computeMatch (rest.get ⟨k, hk⟩).style style
            omega
      · refine Or.inr ⟨i2 + 1, by simpa using Nat.succ_lt_succ hi2, ?_, ?_, ?_, ?_⟩
        · rw [hpf, hp]; rfl
        · exact lt_trans hl hlt
        · intro j hj hji
          cases j with
          | zero => exact hl
          | succ k =>
            have hk : k < rest.length := by simpa using hj
            exact hs k hk (by omega)
        · intro j hj
          cases j with
          | zero => exact le_of_lt hl
          | succ k =>
            have hk : k < rest.length := by simpa using hj
            exact hle k hk
    · have hpf : pick style b (f :: rest) = pick style b rest := by
        rw [pick_cons, if_neg hlt]
      rcases ih b with ⟨h1, h2⟩ | ⟨i2, hi2, hp, hl, hs, hle⟩
      · refine Or.inl ⟨by rw [hpf, h1], ?_⟩
        intro g hg
        rcases List.mem_cons.mp hg with hgf | hgr
        · subst hgf; exact hlt
        · exact h2 g hgr
      · refine Or.inr ⟨i2 + 1, by simpa using Nat.succ_lt_succ hi2, ?_, ?_, ?_, ?_⟩
        · rw [hpf, hp]; rfl
        · exact hl
        · intro j hj hji
          cases j with
          | zero =>
            show computeMatch (rest.get ⟨i2, hi2⟩).style style < computeMatch f.style style
            have hbf : computeMatch b.style style ≤ computeMatch f.style style := by omega
            omega
          | succ k =>
            have hk : k < rest.length := by simpa using hj
            exact hs k hk (by omega)
        · intro j hj
          cases j with
          | zero =>
            show computeMatch (rest.get ⟨i2, hi2⟩).style style ≤ computeMatch f.style style
            omega
          | succ k =>
            have hk : k < rest.length := by simpa using hj
            exact hle k hk

/-- Claim C3: on a non-empty family the scan returns the entry with the
lowest `computeMatch` score against the requested style, and among entries
of equal score the one listed earliest; the returned fakery is computed
from that entry's style. -/
theorem getClosestMatch_spec (fonts : List Font) (style : FontStyle)
    (h : fonts ≠ []) :
    ∃ i, ∃ hi : i < fonts.length,
      getClosestMatch fonts style =
        ⟨some (fonts.get ⟨i, hi⟩).typeface,
         computeFakery style (fonts.get ⟨i, hi⟩).style⟩ ∧
      (∀ j, ∀ hj : j < fonts.length,
        computeMatch (fonts.get ⟨i, hi⟩).style style ≤
          computeMatch (fonts.get ⟨j, hj⟩).style style) ∧
      (∀ j, ∀ hj : j < fonts.length,
        computeMatch (fonts.get ⟨j, hj⟩).style style =
          computeMatch (fonts.get ⟨i, hi⟩).style style → i ≤ j) := by
  match fonts, h with
  | f0 :: rest, _ =>
    have hloop : (closestLoop style (f0 :: rest) 0 none 0).1 =
        some (pick style f0 rest) := by
      show (closestLoop style rest 1 (some f0) (computeMatch f0.style style)).1 =
        some (pick style f0 rest)
      exact closestLoop_eq_pick style rest 1 f0 (le_refl 1)
    have hres : getClosestMatch (f0 :: rest) style =
        ⟨some (pick style f0 rest).typeface,
         computeFakery style (pick style f0 rest).style⟩ := by
      unfold getClosestMatch
      rw [hloop]
    rcases pick_spec style rest f0 with ⟨h1, h2⟩ | ⟨i2, hi2, hp, hl, hs, hle⟩
    · refine ⟨0, by simp, ?_, ?_, ?_⟩
      · rw [hres, h1]; rfl
      · intro j hj
        cases j with
        | zero => exact le_refl _
        | succ k =>
          have hk : k < rest.length := by simpa using hj
          have hmem : rest.get ⟨k, hk⟩ ∈ rest := List.get_mem rest k hk
          have := h2 _ hmem
          show computeMatch f0.style style ≤ computeMatch (rest.get ⟨k, hk⟩).style style
          omega
      · intro j hj _; omega
    · refine ⟨i2 + 1, by simpa using Nat.succ_lt_succ hi2, ?_, ?_, ?_⟩
      · rw [hres, hp]; rfl
      · intro j hj
        cases j with
        | zero => exact le_of_lt hl
        | succ k =>
          have hk : k < rest.length := by simpa using hj
          exact hle k hk
      · intro j hj heq
        cases j with
        | zero =>
          exfalso
          have : computeMatch f0.style style =
              computeMatch (rest.get ⟨i2, hi2⟩).style style := heq
          omega
        | succ k =>
          have hk : k < rest.length := by simpa using hj
          by_contra hik
          have hki : k < i2 := by omega
          have := hs k hk hki
          have heq2 : computeMatch (rest.get ⟨k, hk⟩).style style =
              computeMatch (rest.get ⟨i2, hi2⟩).style style := heq
          omega

/-- Witness for C3 at a concrete two-font family with a tie: both fonts
score equally against the requested style, so the first-listed one wins. -/
theorem getClosestMatch_spec_witness :
    ([(⟨1, ⟨400, Slant.UPRIGHT⟩⟩ : Font), ⟨2, ⟨400, Slant.UPRIGHT⟩⟩] ≠ []) ∧
    (∃ i, ∃ hi : i < ([(⟨1, ⟨400, Slant.UPRIGHT⟩⟩ : Font),
        ⟨2, ⟨400, Slant.UPRIGHT⟩⟩] : List Font).length,
      getClosestMatch [⟨1, ⟨400, Slant.UPRIGHT⟩⟩, ⟨2, ⟨400, Slant.UPRIGHT⟩⟩]
          ⟨700, Slant.ITALIC⟩ =
        ⟨some (([(⟨1, ⟨400, Slant.UPRIGHT⟩⟩ : Font),
            ⟨2, ⟨400, Slant.UPRIGHT⟩⟩] : List Font).get ⟨i, hi⟩).typeface,
         computeFakery ⟨700, Slant.ITALIC⟩
           (([(⟨1, ⟨400, Slant.UPRIGHT⟩⟩ : Font),
             ⟨2, ⟨400, Slant.UPRIGHT⟩⟩] : List Font).get ⟨i, hi⟩).style⟩ ∧
      (∀ j, ∀ hj : j < ([(⟨1, ⟨400, Slant.UPRIGHT⟩⟩ : Font),
          ⟨2, ⟨400, Slant.UPRIGHT⟩⟩] : List Font).length,
        computeMatch (([(⟨1, ⟨400, Slant.UPRIGHT⟩⟩ : Font),
            ⟨2, ⟨400, Slant.UPRIGHT⟩⟩] : List Font).get ⟨i, hi⟩).style
          ⟨700, Slant.ITALIC⟩ ≤
        computeMatch (([(⟨1, ⟨400, Slant.UPRIGHT⟩⟩ : Font),
            ⟨2, ⟨400, Slant.UPRIGHT⟩⟩] : List Font).get ⟨j, hj⟩).style
          ⟨700, Slant.ITALIC⟩) ∧
      (∀ j, ∀ hj : j < ([(⟨1, ⟨400, Slant.UPRIGHT⟩⟩ : Font),
          ⟨2, ⟨400, Slant.UPRIGHT⟩⟩] : List Font).length,
        computeMatch (([(⟨1, ⟨400, Slant.UPRIGHT⟩⟩ : Font),
            ⟨2, ⟨400, Slant.UPRIGHT⟩⟩] : List Font).get ⟨j, hj⟩).style
          ⟨700, Slant.ITALIC⟩ =
        computeMatch (([(⟨1, ⟨400, Slant.UPRIGHT⟩⟩ : Font),
            ⟨2, ⟨400, Slant.UPRIGHT⟩⟩] : List Font).get ⟨i, hi⟩).style
          ⟨700, Slant.ITALIC⟩ → i ≤ j)) :=
  ⟨by decide,
   getClosestMatch_spec [⟨1, ⟨400, Slant.UPRIGHT⟩⟩, ⟨2, ⟨400, Slant.UPRIGHT⟩⟩]
     ⟨700, Slant.ITALIC⟩ (by decide)⟩

/-! ## FontFamily: coverage, hasGlyph and variation derivation -/

/-- Structure `FontVariation`: an (axis tag, value) pair requested by the caller. -/
structure FontVariation where
  axisTag : Nat
  value : Int
deriving DecidableEq

/-- Structure `FontFamily` state after construction: identifiers, the font list, and
the derived coverage / per-variation-selector coverage / supported-axis
data computed by `computeCoverage`.  The supported-axis set
(`std::unordered_set<AxisTag>`) is modelled as a list queried only through
emptiness and membership. -/
structure FontFamily where
  localeListId : Nat
  variant : Nat
  fonts : List Font
  coverage : SparseBitSet
  cmapFmt14Coverage : List (Option SparseBitSet)
  supportedAxes : List Nat
deriving DecidableEq

/-- Modelled from the spec: the external collaborators of FontFamily.cpp
that are not part of the sources at hand — table presence and cmap decoding
(`getFontTable` + `CmapCoverage::getCoverage`), per-font axis extraction
(`getSupportedAxesLocked` via `analyzeAxes`), and font-resource derivation
(`MinikinFont::createFontWithVariation`, which may fail with `nullptr`).
Each is an arbitrary function of the opaque typeface handle. -/
structure ExternalTables where
  hasCmap : Nat → Bool
  decodeCoverage : Nat → SparseBitSet × List (Option SparseBitSet)
  fontAxes : Nat → List Nat
  createWithVariation : Nat → List FontVariation → Option Nat

/-- The union of the supported axes over all fonts of the family, as
accumulated by the loop at the end of `computeCoverage` (set union
modelled as list append; queried only through emptiness / membership). -/
def familyAxes (ext : ExternalTables) (fonts : List Font) : List Nat :=
  fonts.foldl (fun acc f => acc ++ ext.fontAxes f.typeface) []

/-- Constructor `FontFamily::FontFamily` + `computeCoverage`: pick the default-style
representative with `getClosestMatch`; if it has no cmap table (also
modelled from the spec for the empty family, whose representative is the
null typeface), log and return with empty coverage — note this early
return also skips the supported-axes loop; otherwise decode coverage and
accumulate the axis union. -/
def mkFontFamily (localeListId variant : Nat) (fonts : List Font)
    (ext : ExternalTables) : FontFamily :=
  match (getClosestMatch fonts defaultFontStyle).font with
  | none => ⟨localeListId, variant, fonts, SparseBitSet.empty, [], []⟩
  | some typeface =>
    if ext.hasCmap typeface then
      ⟨localeListId, variant, fonts, (ext.decodeCoverage typeface).1,
       (ext.decodeCoverage typeface).2, familyAxes ext fonts⟩
    else
      ⟨localeListId, variant, fonts, SparseBitSet.empty, [], []⟩

/-- Method `FontFamily::hasGlyph`.  The translation of a variation selector to its
dense index (`getVsIndex`, external to this file) is passed in as `g`. -/
def hasGlyph (family : FontFamily) (g : Nat → Nat)
    (codepoint variationSelector : Nat) : Bool :=
  if variationSelector = 0 then
    family.coverage.get codepoint
  else if family.cmapFmt14Coverage.isEmpty then
    false
  else if family.cmapFmt14Coverage.length ≤ g variationSelector then
    false
  else
    match family.cmapFmt14Coverage.getD (g variationSelector) none with
    | none => false
    | some bitset => bitset.get codepoint

/-- The per-font `supportedVariations` flag of `createFamilyWithVariation`:
the font's own axis set is non-empty and contains some requested axis. -/
def fontSupportsVariations (ext : ExternalTables)
    (variations : List FontVariation) (typeface : Nat) : Bool :=
  !(ext.fontAxes typeface).isEmpty &&
    variations.any (fun v => (ext.fontAxes typeface).contains v.axisTag)

/-- The loop body of `createFamilyWithVariation`: derive a varied resource
when the font supports some requested axis; when it does not, or when
derivation fails (`nullptr`), fall back to the original typeface.  The
declared style is carried over unchanged. -/
def deriveFont (ext : ExternalTables) (variations : List FontVariation)
    (font : Font) : Font :=
  ⟨(if fontSupportsVariations ext variations font.typeface then
      ext.createWithVariation font.typeface variations
    else none).getD font.typeface,
   font.style⟩

/-- Method `FontFamily::createFamilyWithVariation`: reject empty requests, a
family with no supported axes, or a request sharing no axis with the
family; otherwise rebuild a family from the per-font derived entries. -/
def createFamilyWithVariation (family : FontFamily) (ext : ExternalTables)
    (variations : List FontVariation) : Option FontFamily :=
  if variations.isEmpty || family.supportedAxes.isEmpty then
    none
  else if !(variations.any fun v => family.supportedAxes.contains v.axisTag) then
    none
  else
    some (mkFontFamily family.localeListId family.variant
      (family.fonts.map (deriveFont ext variations)) ext)

lemma mkFontFamily_fonts (lid var : Nat) (fonts : List Font)
    (ext : ExternalTables) : (mkFontFamily lid var fonts ext).fonts = fonts := by
  unfold mkFontFamily
  rcases (getClosestMatch fonts defaultFontStyle).font with _ | t
  · rfl
  · dsimp only
    split <;> rfl

lemma mkFontFamily_localeListId (lid var : Nat) (fonts : List Font)
    (ext : ExternalTables) : (mkFontFamily lid var fonts ext).localeListId = lid := by
  unfold mkFontFamily
  rcases (getClosestMatch fonts defaultFontStyle).font with _ | t
  · rfl
  · dsimp only
    split <;> rfl

lemma mkFontFamily_variant (lid var : Nat) (fonts : List Font)
    (ext : ExternalTables) : (mkFontFamily lid var fonts ext).variant = var := by
  unfold mkFontFamily
  rcases (getClosestMatch fonts defaultFontStyle).font with _ | t
  · rfl
  · dsimp only
    split <;> rfl

/-- Claim C5: `hasGlyph` with selector 0 is exactly the base coverage
query; with a non-zero selector it returns the selector's bitset's answer
when the translated index holds a bitset, and false when the table is
empty, the index is out of range, or no bitset is recorded there (all three
cases are summarized by the `get?`/`join` lookup on the right-hand side). -/
theorem hasGlyph_spec (fam : FontFamily) (g : Nat → Nat) (c v : Nat) :
    hasGlyph fam g c 0 = fam.coverage.get c ∧
    (v ≠ 0 →
      hasGlyph fam g c v =
        match (fam.cmapFmt14Coverage.get? (g v)).join with
        | some bs => bs.get c
        | none => false) := by
  constructor
  · simp [hasGlyph]
  · intro hv
    unfold hasGlyph
    rw [if_neg hv]
    by_cases hemp : fam.cmapFmt14Coverage.isEmpty = true
    · rw [if_pos hemp]
      rw [List.isEmpty_iff.mp hemp]
      rfl
    · rw [if_neg hemp]
      by_cases hlen : fam.cmapFmt14Coverage.length ≤ g v
      · rw [if_pos hlen]
        rw [List.get?_len_le hlen]
        rfl
      · rw [if_neg hlen]
        push_neg at hlen
        have hq := List.get?_eq_get hlen
        have hgetD : fam.cmapFmt14Coverage.getD (g v) none =
            fam.cmapFmt14Coverage.get ⟨g v, hlen⟩ := by
          rw [List.getD_eq_getD_get?, hq]
          rfl
        rw [hgetD, hq]
        rcases fam.cmapFmt14Coverage.get ⟨g v, hlen⟩ with _ | bs
        · rfl
        · rfl

/-- Witness for C5 on a concrete family: a selector translating to index 1
of a two-slot table whose second slot holds coverage of `[10, 20)`. -/
theorem hasGlyph_spec_witness :
    hasGlyph
        ⟨0, 0, [], SparseBitSet.ofRanges [(0x41, 0x42)],
         [none, some (SparseBitSet.ofRanges [(10, 20)])], []⟩
        (fun vs => vs - 1) 15 2 =
      match ((([none, some (SparseBitSet.ofRanges [(10, 20)])] :
          List (Option SparseBitSet)).get? ((fun vs => vs - 1) 2))).join with
      | some bs => bs.get 15
      | none => false :=
  (hasGlyph_spec
    ⟨0, 0, [], SparseBitSet.ofRanges [(0x41, 0x42)],
     [none, some (SparseBitSet.ofRanges [(10, 20)])], []⟩
    (fun vs => vs - 1) 15 2).2 (by decide)

/-- Claim C6: on a family built from an empty entry list, every coverage
query answers "not covered" and the match query answers "no font" with
neutral fakery; both construction and the queries are total functions, so
they complete without error. -/
theorem emptyFamily_spec (ext : ExternalTables) (lid var : Nat)
    (g : Nat → Nat) (c v : Nat) (s : FontStyle) :
    hasGlyph (mkFontFamily lid var [] ext) g c v = false ∧
    getClosestMatch (mkFontFamily lid var [] ext).fonts s = ⟨none, ⟨false, false⟩⟩ := by
  constructor
  · have hfam : mkFontFamily lid var [] ext =
        ⟨lid, var, [], SparseBitSet.empty, [], []⟩ := rfl
    rw [hfam]
    unfold hasGlyph
    by_cases hv : v = 0
    · rw [if_pos hv]; rfl
    · rw [if_neg hv]; rfl
  · rfl

/-- Claim C7: `createFamilyWithVariation` returns `nullptr` when the
request list is empty, when the family supports no axes, or when no
requested axis tag belongs to the family's supported-axis set. -/
theorem createFamilyWithVariation_rejects (fam : FontFamily)
    (ext : ExternalTables) (variations : List FontVariation) :
    (variations = [] → createFamilyWithVariation fam ext variations = none) ∧
    (fam.supportedAxes = [] → createFamilyWithVariation fam ext variations = none) ∧
    ((∀ v ∈ variations, v.axisTag ∉ fam.supportedAxes) →
      createFamilyWithVariation fam ext variations = none) := by
  refine ⟨?_, ?_, ?_⟩
  · intro h; subst h; rfl
  · intro h
    unfold createFamilyWithVariation
    rw [h]
    have hc : (variations.isEmpty || List.isEmpty ([] : List Nat)) = true := by
      simp
    rw [if_pos hc]
  · intro h
    have hany : (variations.any fun v => fam.supportedAxes.contains v.axisTag) = false := by
      rw [List.any_eq_false]
      intro v hv
      exact fun hc => h v hv (List.elem_iff.mp hc)
    unfold createFamilyWithVariation
    by_cases h1 : (variations.isEmpty || fam.supportedAxes.isEmpty) = true
    · rw [if_pos h1]
    · rw [if_neg h1, hany]
      rfl

/-- A trivial instantiation of the external collaborators: no tables, no
axes, derivation always fails. -/
def extTrivial : ExternalTables :=
  ⟨fun _ => false, fun _ => (SparseBitSet.empty, []), fun _ => [], fun _ _ => none⟩

/-- A one-font family that declares support for axis tag 42. -/
def famAxis42 : FontFamily :=
  ⟨0, 0, [⟨7, ⟨400, Slant.UPRIGHT⟩⟩], SparseBitSet.empty, [], [42]⟩

/-- Witness for C7: a request for axis 7, which `famAxis42` does not
support, is rejected. -/
theorem createFamilyWithVariation_rejects_witness :
    (∀ v ∈ [(⟨7, 1⟩ : FontVariation)], v.axisTag ∉ famAxis42.supportedAxes) ∧
    createFamilyWithVariation famAxis42 extTrivial [⟨7, 1⟩] = none :=
  ⟨by decide,
   (createFamilyWithVariation_rejects famAxis42 extTrivial [⟨7, 1⟩]).2.2 (by decide)⟩

/-- Claim C8: once the cheap rejects are passed, the derivation always
succeeds with exactly one entry per original entry, and an entry whose own
axis set misses every requested axis — or whose resource derivation fails —
is kept with its original typeface (and style) rather than dropped. -/
theorem createFamilyWithVariation_fallback (fam : FontFamily)
    (ext : ExternalTables) (variations : List FontVariation)
    (h1 : variations ≠ []) (h2 : fam.supportedAxes ≠ [])
    (h3 : ∃ v ∈ variations, v.axisTag ∈ fam.supportedAxes) :
    ∃ nf, createFamilyWithVariation fam ext variations = some nf ∧
      nf.fonts.length = fam.fonts.length ∧
      (∀ i : Nat, ∀ font : Font, fam.fonts.get? i = some font →
        ((∀ v ∈ variations, v.axisTag ∉ ext.fontAxes font.typeface) ∨
          ext.createWithVariation font.typeface variations = none) →
        nf.fonts.get? i = some font) := by
  have hie : variations.isEmpty = false := by
    cases variations with
    | nil => exact absurd rfl h1
    | cons a l => rfl
  have hse : fam.supportedAxes.isEmpty = false := by
    rcases hax : fam.supportedAxes with _ | ⟨a, l⟩
    · exact absurd hax h2
    · rfl
  have hany : (variations.any fun v => fam.supportedAxes.contains v.axisTag) = true := by
    rcases h3 with ⟨v, hv, hmem⟩
    exact List.any_eq_true.mpr ⟨v, hv, List.elem_iff.mpr hmem⟩
  refine ⟨mkFontFamily fam.localeListId fam.variant
      (fam.fonts.map (deriveFont ext variations)) ext, ?_, ?_, ?_⟩
  · unfold createFamilyWithVariation
    rw [hie, hse, hany]
    rfl
  · rw [mkFontFamily_fonts]
    exact List.length_map _ _
  · intro i font hget hfall
    rw [mkFontFamily_fonts, List.get?_map, hget]
    have hnone : (if fontSupportsVariations ext variations font.typeface = true then
        ext.createWithVariation font.typeface variations
      else none) = none := by
      rcases hfall with hno | hfail
      · have hanyf : (variations.any fun v =>
            (ext.fontAxes font.typeface).contains v.axisTag) = false := by
          rw [List.any_eq_false]
          intro v hv
          exact fun hc => hno v hv (List.elem_iff.mp hc)
        have hsv : fontSupportsVariations ext variations font.typeface = false := by
          unfold fontSupportsVariations
          rw [hanyf, Bool.and_false]
        rw [hsv]
        rfl
      · by_cases hsv : fontSupportsVariations ext variations font.typeface = true
        · rw [if_pos hsv]; exact hfail
        · rw [if_neg hsv]
    have hder : deriveFont ext variations font = font := by
      unfold deriveFont
      rw [hnone]
      rfl
    rw [Option.map_some', hder]

/-- Witness for C8: `famAxis42` with a request on its supported axis 42;
the single font itself supports no axes, so it falls back unchanged. -/
theorem createFamilyWithVariation_fallback_witness :
    ([(⟨42, 1⟩ : FontVariation)] ≠ []) ∧ (famAxis42.supportedAxes ≠ []) ∧
    (∃ v ∈ [(⟨42, 1⟩ : FontVariation)], v.axisTag ∈ famAxis42.supportedAxes) ∧
    (∃ nf, createFamilyWithVariation famAxis42 extTrivial [⟨42, 1⟩] = some nf ∧
      nf.fonts.length = famAxis42.fonts.length ∧
      (∀ i : Nat, ∀ font : Font, famAxis42.fonts.get? i = some font →
        ((∀ v ∈ [(⟨42, 1⟩ : FontVariation)],
            v.axisTag ∉ extTrivial.fontAxes font.typeface) ∨
          extTrivial.createWithVariation font.typeface [⟨42, 1⟩] = none) →
        nf.fonts.get? i = some font)) :=
  ⟨by decide, by decide, by decide,
   createFamilyWithVariation_fallback famAxis42 extTrivial [⟨42, 1⟩]
     (by decide) (by decide) (by decide)⟩

/-- Claim C10: whenever variation derivation returns a new family, that
family keeps the source's locale-list identifier and variant tag, and its
entries carry, index by index, exactly the declared styles of the source's
entries (derivation replaces only the font resource).  The source itself is
a pure value here, so it is untouched by construction. -/
theorem createFamilyWithVariation_frame (fam : FontFamily)
    (ext : ExternalTables) (variations : List FontVariation) (nf : FontFamily)
    (h : createFamilyWithVariation fam ext variations = some nf) :
    nf.localeListId = fam.localeListId ∧ nf.variant = fam.variant ∧
    nf.fonts.map Font.style = fam.fonts.map Font.style := by
  unfold createFamilyWithVariation at h
  by_cases h1 : (variations.isEmpty || fam.supportedAxes.isEmpty) = true
  · rw [if_pos h1] at h; cases h
  · rw [if_neg h1] at h
    by_cases h2 : (!(variations.any fun v => fam.supportedAxes.contains v.axisTag)) = true
    · rw [if_pos h2] at h; cases h
    · rw [if_neg h2] at h
      have hnf : nf = mkFontFamily fam.localeListId fam.variant
          (fam.fonts.map (deriveFont ext variations)) ext := (Option.some.inj h).symm
      rw [hnf]
      refine ⟨mkFontFamily_localeListId _ _ _ _, mkFontFamily_variant _ _ _ _, ?_⟩
      rw [mkFontFamily_fonts, List.map_map]
      exact List.map_congr_left (fun f _ => rfl)

/-- The family produced by the C10 witness derivation: same identifiers
and entry styles as `famAxis42`, with recomputed (here empty) coverage
and axis data. -/
def famAxis42Derived : FontFamily :=
  ⟨0, 0, [⟨7, ⟨400, Slant.UPRIGHT⟩⟩], SparseBitSet.empty, [], []⟩

/-- Witness for C10 at the same concrete derivation as the C8 witness. -/
theorem createFamilyWithVariation_frame_witness :
    createFamilyWithVariation famAxis42 extTrivial [⟨42, 1⟩] =
        some famAxis42Derived ∧
    (famAxis42Derived.localeListId = famAxis42.localeListId ∧
      famAxis42Derived.variant = famAxis42.variant ∧
      famAxis42Derived.fonts.map Font.style = famAxis42.fonts.map Font.style) :=
  ⟨by decide,
   createFamilyWithVariation_frame famAxis42 extTrivial [⟨42, 1⟩]
     famAxis42Derived (by decide)⟩

end Minikin
